import Mathlib

/-!
Verification development for the UCI front end of the SugaR chess engine
(`source/uci.cpp`).  The file shallow-embeds the command interpreter and
game-state driver: the move-notation codec (`UCI::move` / `UCI::to_move`),
the `position`, `setoption`, `go` and `bench` handlers, and the
move-application validator `position_make_move`.  The external Position
abstraction (board state, legal-move enumeration, FEN serialization) lives
outside this translation unit; it is modelled from the specification as an
abstract interface, as noted on each such definition.
-/

namespace SugaR

/-- Strings of the C++ layer are modelled as lists of characters. -/
abbrev Str := List Char

/-- Modelled from the spec: the two recognized sides; the command layer only
ever distinguishes the first side (White) from the second (Black). -/
inductive Color : Type
  | WHITE
  | BLACK
deriving DecidableEq, Repr

/-- Opponent of a side. -/
def Color.other : Color → Color
  | .WHITE => .BLACK
  | .BLACK => .WHITE

/-- Modelled from the spec: a board square, indexed rank-major exactly as the
`to > from` comparison in `UCI::move` requires (index = 8 * rank + file). -/
abbrev Square := Fin 64

/-- File of a square (source helper `file_of`). -/
def file_of (s : Square) : Fin 8 := ⟨s.val % 8, Nat.mod_lt _ (by omega)⟩

/-- Rank of a square (source helper `rank_of`). -/
def rank_of (s : Square) : Fin 8 := ⟨s.val / 8, by omega⟩

/-- Square built from a file and a rank (source helper `make_square`). -/
def make_square (f r : Fin 8) : Square := ⟨8 * r.val + f.val, by omega⟩

/-- Modelled from the spec: the kind of a real move, one of
normal / promotion / en-passant / castling. -/
inductive MoveType : Type
  | NORMAL
  | PROMOTION
  | ENPASSANT
  | CASTLING
deriving DecidableEq, Repr

/-- Modelled from the spec: a move is either the "no move" sentinel, the
"null move" sentinel, or a real move carrying a from-square, a to-square,
its kind and a promotion piece type (an index into the piece-type
enumeration, `0` standing for "no piece type").  Castling moves carry the
internal king-captures-rook encoding: the to-square is the rook's square. -/
inductive Move : Type
  | none
  | null
  | real (src dst : Square) (ty : MoveType) (promo : Fin 7)
deriving DecidableEq, Repr

/-- Modelled from the spec: `is_ok` of the external move type — a move value
is usable iff it is neither of the two sentinels. -/
def is_ok (m : Move) : Bool :=
  if m = Move.none then false else if m = Move.null then false else true

/-- View of the external Position that the codec consumes: its legal-move
enumeration (in generator order) and its castling-notation variant flag.
Modelled from the spec: the Position abstraction offers legal-move
enumeration, and `UCI::to_move` reads only that list and `is_chess960()`. -/
structure Pos : Type where
  legal : List Move
  chess960 : Bool
deriving DecidableEq, Repr

/-- File constant `FILE_G` used by the castling display adjustment. -/
def FILE_G : Fin 8 := 6

/-- File constant `FILE_C` used by the castling display adjustment. -/
def FILE_C : Fin 8 := 2

namespace UCI

/-- Source `UCI::square`: algebraic notation of a square, file letter then
rank digit ( `'a' + file`, `'1' + rank` ). -/
def square (s : Square) : Str :=
  [Char.ofNat (97 + (file_of s).val), Char.ofNat (49 + (rank_of s).val)]

/-- Promotion letter: the source indexes the literal `" pnbrqk"` with the
promotion piece type. -/
def promoChar (p : Fin 7) : Char := (" pnbrqk".toList).getD p.val ' '

/-- Source `UCI::move`: coordinate notation of a move.  The sentinels map to
`"(none)"` and `"0000"`; a castling move displayed in standard (non-chess960)
mode has its to-square recomputed to the conventional king destination file
on the from-square's rank; a promotion appends its piece letter. -/
def move (m : Move) (chess960 : Bool) : Str :=
  match m with
  | .none => "(none)".toList
  | .null => "0000".toList
  | .real src dst ty promo =>
    let dst' := if ty = MoveType.CASTLING ∧ chess960 = false then
        make_square (if src < dst then FILE_G else FILE_C) (rank_of src)
      else dst
    let base := square src ++ square dst'
    if ty = MoveType.PROMOTION then base ++ [promoChar promo] else base

/-- Model of C `tolower` on the ASCII range, as applied by `UCI::to_move`. -/
def cppToLower (c : Char) : Char :=
  if 'A' ≤ c ∧ c ≤ 'Z' then Char.ofNat (c.toNat + 32) else c

/-- Normalization performed by `UCI::to_move` before matching: a string of
length 5 has its fifth character lowercased (a GUI may send the promotion
piece in uppercase). -/
def normalizeTok (s : Str) : Str :=
  if s.length = 5 then s.set 4 (cppToLower (s.getD 4 ' ')) else s

/-- Source `UCI::to_move`: after normalization, scan the position's
legal-move list and return the first move whose encoding (under the
position's own castling-notation variant) equals the input; otherwise the
"no move" sentinel. -/
def to_move (pos : Pos) (tok : Str) : Move :=
  (pos.legal.find? (fun m => normalizeTok tok = move m pos.chess960)).getD Move.none

end UCI

/-! ### Basic facts about the codec -/

theorem promoChar_lower (p : Fin 7) : UCI.cppToLower (UCI.promoChar p) = UCI.promoChar p := by
  fin_cases p <;> decide

theorem squareChar_file (f : Fin 8) :
    UCI.cppToLower (Char.ofNat (97 + f.val)) = Char.ofNat (97 + f.val) := by
  fin_cases f <;> decide

/-- Every encoding produced by `UCI.move` is untouched by the uppercase
normalization: non-promotion encodings have length ≠ 5, and a promotion's
fifth character is already a lowercase letter (or a blank). -/
theorem normalizeTok_move (m : Move) (c : Bool) :
    UCI.normalizeTok (UCI.move m c) = UCI.move m c := by
  cases m with
  | none => rfl
  | null => rfl
  | real src dst ty promo =>
    simp only [UCI.move]
    by_cases hp : ty = MoveType.PROMOTION
    · simp only [hp, if_pos rfl]
      simp only [UCI.square, UCI.normalizeTok]
      simp only [List.cons_append, List.nil_append, List.length_cons,
        List.length_append, List.length_singleton]
      norm_num
      simp [List.set, List.getD, promoChar_lower]
    · simp only [if_neg hp]
      simp only [UCI.square, UCI.normalizeTok]
      simp [List.cons_append]

/-- Decoding returns either the sentinel or a member of the legal-move
list. -/
theorem to_move_mem (pos : Pos) (tok : Str) :
    UCI.to_move pos tok = Move.none ∨ UCI.to_move pos tok ∈ pos.legal := by
  cases h : pos.legal.find? (fun m => UCI.normalizeTok tok = UCI.move m pos.chess960) with
  | none => left; simp [UCI.to_move, h]
  | some m' =>
    right
    have hm := List.mem_of_find?_eq_some h
    simpa [UCI.to_move, h] using hm

/-! ### Claims C1 and C5: the codec round trip and decode soundness -/

/-- Castling move of a chess960-style setup (white king on d1, rook on a1,
queen-side right), internally encoded king-captures-rook: d1 to a1. -/
def clashCastle : Move := Move.real (3 : Fin 64) (0 : Fin 64) MoveType.CASTLING 0

/-- Ordinary king move d1 to c1 of the same setup. -/
def clashKing : Move := Move.real (3 : Fin 64) (2 : Fin 64) MoveType.NORMAL 0

/-- Position view in which both `clashCastle` and `clashKing` are legal and
the standard castling-notation variant is in effect (the position of FEN
`4k3/8/8/8/8/8/8/R2K4 w Q - 0 1` with `UCI_Chess960` off): standard-notation
display maps the castling move to the king-destination file C, so both legal
moves encode to the same string `d1c1`. -/
def clashPos : Pos := ⟨[clashCastle, clashKing], false⟩

/-- Claim C1, counterexample: decoding the encoding of the legal king move
`d1c1` against `clashPos` yields the castling move (the first legal move
with that encoding), not the king move itself, so the round trip
`to_move(pos, move(m, pos.is_chess960()))  =  m` fails at this position. -/
theorem castlingNotationClash :
    UCI.to_move clashPos (UCI.move clashKing clashPos.chess960) = clashCastle ∧
      clashCastle ≠ clashKing := by
  decide

/-- Claim C1, amended: decoding the encoding of a legal move `m` returns the
first legal move carrying the same encoding — hence a move whose encoding
equals that of `m`, and `m` itself whenever no distinct legal move of the
position shares `m`'s encoding. -/
theorem to_move_encode_roundTrip (pos : Pos) (m : Move) (hm : m ∈ pos.legal)
    (huniq : ∀ m' ∈ pos.legal,
      UCI.move m' pos.chess960 = UCI.move m pos.chess960 → m' = m) :
    UCI.to_move pos (UCI.move m pos.chess960) = m := by
  have hnorm := normalizeTok_move m pos.chess960
  cases h : pos.legal.find?
      (fun m' => UCI.normalizeTok (UCI.move m pos.chess960) = UCI.move m' pos.chess960) with
  | none =>
    exfalso
    have := List.find?_eq_none.mp h m hm
    simp [hnorm] at this
  | some m'' =>
    have hpred := List.find?_some h
    have hmem := List.mem_of_find?_eq_some h
    rw [hnorm] at hpred
    simp only [decide_eq_true_eq] at hpred
    have : m'' = m := huniq m'' hmem hpred.symm
    simp [UCI.to_move, h, this]

/-- Concrete run of the round-trip theorem: the start-position double pawn
push e2e4 decodes back to itself in a view where it is the only legal move
with that encoding. -/
theorem to_move_encode_roundTrip_witness :
    UCI.to_move ⟨[Move.real (12 : Fin 64) (28 : Fin 64) MoveType.NORMAL 0], false⟩
      (UCI.move (Move.real (12 : Fin 64) (28 : Fin 64) MoveType.NORMAL 0) false) =
      Move.real (12 : Fin 64) (28 : Fin 64) MoveType.NORMAL 0 :=
  to_move_encode_roundTrip
    ⟨[Move.real (12 : Fin 64) (28 : Fin 64) MoveType.NORMAL 0], false⟩
    (Move.real (12 : Fin 64) (28 : Fin 64) MoveType.NORMAL 0)
    (by decide) (by decide)

/-- Position view holding one legal move, the queen promotion e7e8q. -/
def promoPos : Pos := ⟨[Move.real (52 : Fin 64) (60 : Fin 64) MoveType.PROMOTION 5], false⟩

/-- Claim C5, counterexample: the string `e7e8Q` is not the encoding of any
legal move of `promoPos` (encodings use a lowercase promotion letter), yet
it does not decode to the "no move" sentinel — `to_move` lowercases the
fifth character before matching. -/
theorem uppercasePromoDecodes :
    (∀ m ∈ promoPos.legal, UCI.move m promoPos.chess960 ≠ "e7e8Q".toList) ∧
      UCI.to_move promoPos ("e7e8Q".toList) ≠ Move.none := by
  decide

/-- Claim C5, amended: `to_move` returns the sentinel or a member of the
position's legal-move list, and every string whose uppercase-promotion
normalization is not the encoding of some legal move decodes to the
sentinel. -/
theorem to_move_sound (pos : Pos) (s : Str) :
    (UCI.to_move pos s = Move.none ∨ UCI.to_move pos s ∈ pos.legal) ∧
      ((∀ m ∈ pos.legal, UCI.move m pos.chess960 ≠ UCI.normalizeTok s) →
        UCI.to_move pos s = Move.none) := by
  constructor
  · exact to_move_mem pos s
  · intro hno
    have : pos.legal.find? (fun m => UCI.normalizeTok s = UCI.move m pos.chess960) = none := by
      rw [List.find?_eq_none]
      intro m hm
      simp only [decide_eq_true_eq]
      exact fun h => hno m hm h.symm
    simp [UCI.to_move, this]

/-- Concrete run of the soundness theorem: a coordinate string naming no
legal move of the start position view decodes to the sentinel. -/
theorem to_move_sound_witness :
    UCI.to_move ⟨[Move.real (12 : Fin 64) (28 : Fin 64) MoveType.NORMAL 0], false⟩
      ("a1a2".toList) = Move.none :=
  (to_move_sound ⟨[Move.real (12 : Fin 64) (28 : Fin 64) MoveType.NORMAL 0], false⟩
    ("a1a2".toList)).2 (by decide)

/-! ### The Position/State session and the `position` handler -/

/-- Modelled from the spec: the external Position abstraction behind a state
type `P` (§6: set-from-FEN, apply/undo move, legal-move enumeration and the
variant flag through `view`, check and consistency queries, FEN
serialization, side to move). -/
structure Engine (P : Type) : Type where
  view : P → Pos
  set : Str → P
  do_move : P → Move → P
  undo_move : P → Move → P
  fen : P → Str
  pos_is_ok : P → Bool
  checkers : P → Bool
  side_to_move : P → Color

/-- FEN string of the initial position (source constant `StartFEN`). -/
def startFEN : Str :=
  "rnbqkbnr/pppppppp/8/8/8/8/PPPPPPPP/RNBQKBNR w KQkq - 0 1".toList

/-- Move-replay loop of the `position` handler: decode each token against
the current position; on a real move append a fresh undo record and apply
the move; stop at the first token decoding to the sentinel. -/
def replayLoop {P : Type} (E : Engine P) : List Str → P → List Unit → P × List Unit
  | [], p, sts => (p, sts)
  | t :: ts, p, sts =>
    let m := UCI.to_move (E.view p) t
    if m = Move.none then (p, sts)
    else replayLoop E ts (E.do_move p m) (sts ++ [()])

/-- Source handler `position`: route on the first token.  `startpos` sets
the start FEN and consumes one following token (the `moves` keyword if
any); `fen` joins subsequent tokens (each with a trailing blank) up to the
`moves` keyword; anything else returns with the session untouched.  On the
two recognized forms the undo-record sequence is replaced by a fresh
one-element sequence before replaying the move list. -/
def position {P : Type} (E : Engine P) (toks : List Str) (st : P × List Unit) :
    P × List Unit :=
  match toks with
  | [] => st
  | t :: rest =>
    if t = "startpos".toList then
      replayLoop E (rest.drop 1) (E.set startFEN) [()]
    else if t = "fen".toList then
      let fenToks := rest.takeWhile (fun x => decide (x ≠ "moves".toList))
      let moveToks := (rest.dropWhile (fun x => decide (x ≠ "moves".toList))).drop 1
      replayLoop E moveToks
        (E.set (fenToks.foldl (fun a tk => a ++ tk ++ [' ']) [])) [()]
    else st

/-- Decoded move stream of a token list: each token is decoded at the state
reached by applying all earlier decoded moves (without halting at the
sentinel; halting is expressed by `appliedMoves`). -/
def decodeStream {P : Type} (E : Engine P) : P → List Str → List Move
  | _, [] => []
  | p, t :: ts =>
    let m := UCI.to_move (E.view p) t
    m :: decodeStream E (E.do_move p m) ts

/-- Longest prefix of the decoded move stream before the first sentinel:
the moves the replay loop actually applies. -/
def appliedMoves {P : Type} (E : Engine P) (p : P) (mt : List Str) : List Move :=
  (decodeStream E p mt).takeWhile (fun m => decide (m ≠ Move.none))

/-- Concrete session state used to run the generic theorems: the list of
moves applied so far. -/
abbrev SimP := List Move

/-- Concrete engine used to run the generic theorems on explicit inputs:
a fixed legal-move view, push-on-apply / pop-on-undo state, and fixed
answers for the check, consistency, side-to-move and FEN queries. -/
def simEngine (leg : List Move) (c960 : Bool) (chk : Bool) (stm : Color)
    (ok : Bool) (fenStr : Str) : Engine SimP :=
  ⟨fun _ => ⟨leg, c960⟩, fun _ => [], fun p m => m :: p, fun p _ => p.drop 1,
    fun _ => fenStr, fun _ => ok, fun _ => chk, fun _ => stm⟩

theorem takeWhile_all_append {α : Type} (p : α → Bool) (a b : List α)
    (h : ∀ x ∈ a, p x = true) :
    (a ++ b).takeWhile p = a ++ b.takeWhile p := by
  induction a with
  | nil => simp
  | cons x xs ih =>
    have hx := h x (by simp)
    simp only [List.cons_append, List.takeWhile_cons_of_pos hx]
    rw [ih (fun y hy => h y (by simp [hy]))]

theorem dropWhile_all_append {α : Type} (p : α → Bool) (a b : List α)
    (h : ∀ x ∈ a, p x = true) :
    (a ++ b).dropWhile p = b.dropWhile p := by
  induction a with
  | nil => simp
  | cons x xs ih =>
    have hx := h x (by simp)
    simp only [List.cons_append, List.dropWhile_cons_of_pos hx]
    exact ih (fun y hy => h y (by simp [hy]))

theorem replayLoop_spec {P : Type} (E : Engine P) (toks : List Str) (p : P)
    (sts : List Unit) :
    replayLoop E toks p sts =
      ((appliedMoves E p toks).foldl E.do_move p,
        sts ++ List.replicate (appliedMoves E p toks).length ()) := by
  induction toks generalizing p sts with
  | nil => simp [replayLoop, appliedMoves, decodeStream]
  | cons t ts ih =>
    simp only [replayLoop, appliedMoves, decodeStream]
    by_cases hm : UCI.to_move (E.view p) t = Move.none
    · simp [hm]
    · rw [if_neg hm, ih]
      simp only [appliedMoves] at *
      rw [List.takeWhile_cons_of_pos (by simpa using hm)]
      simp [List.replicate_succ, List.append_assoc]

/-- Claim C3: after a `position` command — `startpos` or a FEN followed by a
`moves` token list — the session holds exactly the base position with the
longest prefix of the move-token list that decodes to real moves applied in
order, and the undo-record sequence is a fresh one of length one plus the
number of moves applied (the result never depends on the prior session
state `st`).  The third conjunct states the halting property: whenever the
applied prefix is proper, its first unapplied token decodes to the
sentinel at the final position. -/
theorem position_replay {P : Type} (E : Engine P) (fenToks mt : List Str)
    (st : P × List Unit) (hf : "moves".toList ∉ fenToks) :
    (position E ("startpos".toList :: "moves".toList :: mt) st =
      ((appliedMoves E (E.set startFEN) mt).foldl E.do_move (E.set startFEN),
        List.replicate ((appliedMoves E (E.set startFEN) mt).length + 1) ())) ∧
    (position E ("fen".toList :: (fenToks ++ "moves".toList :: mt)) st =
      ((appliedMoves E (E.set (fenToks.foldl (fun a tk => a ++ tk ++ [' ']) [])) mt).foldl
          E.do_move (E.set (fenToks.foldl (fun a tk => a ++ tk ++ [' ']) [])),
        List.replicate
          ((appliedMoves E (E.set (fenToks.foldl (fun a tk => a ++ tk ++ [' ']) [])) mt).length
            + 1) ())) ∧
    (∀ p : P, (appliedMoves E p mt).length < mt.length →
      UCI.to_move (E.view ((appliedMoves E p mt).foldl E.do_move p))
        (mt.getD (appliedMoves E p mt).length []) = Move.none) := by
  refine ⟨?_, ?_, ?_⟩
  · simp only [position, if_pos rfl, List.drop_one, List.tail_cons]
    rw [replayLoop_spec]
    simp [List.replicate_succ]
  · have h1 : ("fen".toList : Str) ≠ "startpos".toList := by decide
    simp only [position, if_neg h1, if_pos rfl]
    have hall : ∀ x ∈ fenToks, (fun x => decide (x ≠ "moves".toList)) x = true := by
      intro x hx
      simp only [decide_eq_true_eq]
      exact fun hxe => hf (hxe ▸ hx)
    have hm : (fun x => decide (x ≠ "moves".toList)) ("moves".toList) = false := by simp
    have htake : ((fenToks ++ "moves".toList :: mt).takeWhile
        (fun x => decide (x ≠ "moves".toList))) = fenToks := by
      rw [takeWhile_all_append _ _ _ hall, List.takeWhile_cons_of_neg (by simp [hm])]
      simp
    have hdrop : ((fenToks ++ "moves".toList :: mt).dropWhile
        (fun x => decide (x ≠ "moves".toList))) = "moves".toList :: mt := by
      rw [dropWhile_all_append _ _ _ hall, List.dropWhile_cons_of_neg (by simp [hm])]
    rw [htake, hdrop]
    simp only [List.drop_one, List.tail_cons]
    rw [replayLoop_spec]
    simp [List.replicate_succ]
  · intro p
    induction mt generalizing p with
    | nil => intro h; simp [appliedMoves, decodeStream] at h
    | cons t ts ih =>
      intro hlt
      by_cases hm : UCI.to_move (E.view p) t = Move.none
      · have happ : appliedMoves E p (t :: ts) = [] := by
          simp [appliedMoves, decodeStream, hm]
        simp [happ, hm]
      · have happ : appliedMoves E p (t :: ts) =
            UCI.to_move (E.view p) t ::
              appliedMoves E (E.do_move p (UCI.to_move (E.view p) t)) ts := by
          simp only [appliedMoves, decodeStream]
          rw [List.takeWhile_cons_of_pos (by simpa using hm)]
        rw [happ] at hlt ⊢
        simp only [List.length_cons, List.foldl_cons, List.getD, List.get?_cons_succ] at hlt ⊢
        exact ih (E.do_move p (UCI.to_move (E.view p) t)) (by omega)

/-- Concrete run of the `position` replay theorem: `position startpos moves
e2e4 a1a1` applies the one token that decodes to a real move and leaves a
fresh two-record undo sequence, whatever the prior session state was. -/
theorem position_replay_witness :
    position (simEngine [Move.real (12 : Fin 64) (28 : Fin 64) MoveType.NORMAL 0]
        false false Color.WHITE true [])
      ["startpos".toList, "moves".toList, "e2e4".toList, "a1a1".toList]
      ([Move.null], [(), (), ()]) =
      ([Move.real (12 : Fin 64) (28 : Fin 64) MoveType.NORMAL 0], [(), ()]) :=
  ((position_replay (simEngine [Move.real (12 : Fin 64) (28 : Fin 64) MoveType.NORMAL 0]
        false false Color.WHITE true [])
      [] ["e2e4".toList, "a1a1".toList]
      ([Move.null], [(), (), ()]) (by decide)).1).trans (by decide)

/-- Claim C9: a `position` command whose first token is neither `startpos`
nor `fen` returns at once, leaving the Position and the undo-record
sequence exactly as they were. -/
theorem position_frame {P : Type} (E : Engine P) (t : Str) (rest : List Str)
    (st : P × List Unit) (h1 : t ≠ "startpos".toList) (h2 : t ≠ "fen".toList) :
    position E (t :: rest) st = st := by
  simp only [position]
  rw [if_neg (by simpa using h1), if_neg (by simpa using h2)]

/-- Concrete run of the frame theorem: an unrecognized first token leaves
the session untouched. -/
theorem position_frame_witness :
    position (simEngine [] false false Color.WHITE true [])
      ["startpo".toList, "moves".toList] ([Move.null], [()]) = ([Move.null], [()]) :=
  position_frame (simEngine [] false false Color.WHITE true [])
    ("startpo".toList) ["moves".toList] ([Move.null], [()]) (by decide) (by decide)

/-! ### The move-application validator `position_make_move` -/

/-- Index of the first occurrence of a character in a string. -/
def charIdx (c : Char) : Str → Option Nat
  | [] => Option.none
  | x :: xs => if x = c then some 0 else (charIdx c xs).map (· + 1)

/-- Model of `std::string::find(char, pos)`: first index at or after `i`
holding `c`, `Option.none` standing for `npos`. -/
def cppFind (s : Str) (c : Char) (i : Nat) : Option Nat :=
  (charIdx c (s.drop i)).map (· + i)

/-- One side of the validator's castling-rights surgery (source lines
444-510): find the first blank; look for the king-side letter from there,
falling back to the queen-side letter; erase the found character only if it
is the king-side letter; then independently look for the queen-side letter
again and erase it if found. -/
def editSide (fen : Str) (kc qc : Char) : Str :=
  match cppFind fen ' ' 0 with
  | Option.none => fen
  | some i0 =>
    let j1 := match cppFind fen kc i0 with
      | some j => some j
      | Option.none => cppFind fen qc i0
    let s1 := match j1 with
      | some j => if fen.getD j ' ' = kc then fen.eraseIdx j else fen
      | Option.none => fen
    match cppFind s1 qc i0 with
    | some j => if s1.getD j ' ' = qc then s1.eraseIdx j else s1
    | Option.none => s1

/-- The validator's castling-rights edit: uppercase letters for the first
side, lowercase for the second. -/
def castleFenEdit (fen : Str) (mover : Color) : Str :=
  match mover with
  | .WHITE => editSide fen 'K' 'Q'
  | .BLACK => editSide fen 'k' 'q'

theorem length_dropWhile_le {α : Type} (p : α → Bool) (l : List α) :
    (l.dropWhile p).length ≤ l.length := by
  induction l with
  | nil => simp
  | cons x xs ih =>
    rw [List.dropWhile_cons]
    split
    · exact Nat.le_succ_of_le ih
    · simp

/-- Helper of `tokenize`: the token read so far is carried in `acc`. -/
def tokenizeAux : Str → Str → List Str
  | [], acc => if acc = [] then [] else [acc]
  | c :: cs, acc =>
    if c = ' ' then
      (if acc = [] then tokenizeAux cs [] else acc :: tokenizeAux cs [])
    else tokenizeAux cs (acc ++ [c])

/-- Whitespace tokenization of one line, as `operator>>` on an input string
stream produces it. -/
def tokenize (s : Str) : List Str := tokenizeAux s []

/-- Castling test on the move kind (source `type_of(move) == CASTLING`). -/
def isCastling : Move → Bool
  | .real _ _ .CASTLING _ => true
  | _ => false

/-- Source `position_make_move` (the debug `move` command): report game end
when no legal move exists; otherwise decode the token, reject sentinels,
tentatively apply the move, capture the FEN, undo on a consistency failure,
otherwise undo, patch the FEN's castling rights when the move castled, and
re-feed `fen <patched FEN>` through the `position` handler. -/
def position_make_move {P : Type} (E : Engine P) (tok : Str) (p : P)
    (sts : List Unit) : List Str × P × List Unit :=
  if ((E.view p).legal).length = 0 then
    if E.checkers p then
      match E.side_to_move p with
      | .WHITE => (["Game over: black wins".toList], p, sts)
      | .BLACK => (["Game over: white wins".toList], p, sts)
    else (["Game over: draw".toList], p, sts)
  else
    let m := UCI.to_move (E.view p) tok
    if is_ok m = false then (["Game over".toList], p, sts)
    else if m ∈ (E.view p).legal then
      let p1 := E.do_move p m
      let fs := E.fen p1
      if E.pos_is_ok p1 = false then (["Game over".toList], E.undo_move p1 m, sts)
      else
        let p2 := E.undo_move p1 m
        let fs2 := if isCastling m then castleFenEdit fs (E.side_to_move p2) else fs
        ([], position E ("fen".toList :: tokenize fs2) (p2, sts))
    else ([], p, sts)

/-- Claim C4: on a position with no legal moves the validator reports the
side not to move as winner when in check (side to move White yields "black
wins", Black yields "white wins") and a draw otherwise, and it leaves the
Position and undo records exactly as they were. -/
theorem position_make_move_gameEnd {P : Type} (E : Engine P) (tok : Str) (p : P)
    (sts : List Unit) (h : (E.view p).legal = []) :
    position_make_move E tok p sts =
      ((if E.checkers p then
          (if E.side_to_move p = Color.WHITE then ["Game over: black wins".toList]
            else ["Game over: white wins".toList])
        else ["Game over: draw".toList]), p, sts) := by
  simp only [position_make_move, h, List.length_nil, if_pos rfl]
  cases hc : E.checkers p <;> cases hs : E.side_to_move p <;> simp [hs]

/-- Concrete run of the game-end theorem: a checkmated view with White to
move yields "black wins" and an untouched session. -/
theorem position_make_move_gameEnd_witness :
    position_make_move (simEngine [] false true Color.WHITE true [])
      ("e2e4".toList) [Move.null] [()] =
      (["Game over: black wins".toList], [Move.null], [()]) :=
  (position_make_move_gameEnd (simEngine [] false true Color.WHITE true [])
    ("e2e4".toList) [Move.null] [()] (by decide)).trans (by decide)

/-- Claim C6: on both failure paths of the validator — the token decodes to
the sentinel, or the internal consistency check fails after the tentative
move — a game-over diagnostic is the only output and the session is
returned exactly as it was (the tentative move having been undone). -/
theorem position_make_move_failure_frame {P : Type} (E : Engine P) (tok : Str)
    (p : P) (sts : List Unit) (hne : (E.view p).legal ≠ [])
    (hfail : UCI.to_move (E.view p) tok = Move.none ∨
      E.pos_is_ok (E.do_move p (UCI.to_move (E.view p) tok)) = false)
    (hundo : E.undo_move (E.do_move p (UCI.to_move (E.view p) tok))
      (UCI.to_move (E.view p) tok) = p) :
    position_make_move E tok p sts = (["Game over".toList], p, sts) := by
  have hlen : ¬ ((E.view p).legal).length = 0 := by
    simpa [List.length_eq_zero] using hne
  simp only [position_make_move, if_neg hlen]
  by_cases hn : UCI.to_move (E.view p) tok = Move.none
  · simp [hn, is_ok]
  · by_cases hnull : UCI.to_move (E.view p) tok = Move.null
    · simp [hnull, is_ok]
    · have hok : is_ok (UCI.to_move (E.view p) tok) = true := by
        simp [is_ok, hn, hnull]
      have hmem : UCI.to_move (E.view p) tok ∈ (E.view p).legal :=
        (to_move_mem (E.view p) tok).resolve_left hn
      have hpo : E.pos_is_ok (E.do_move p (UCI.to_move (E.view p) tok)) = false :=
        hfail.resolve_left hn
      simp [hok, hmem, hpo, hundo]

/-- Concrete run of the failure-frame theorem: a token decoding to no legal
move yields the game-over diagnostic and an untouched session. -/
theorem position_make_move_failure_frame_witness :
    position_make_move
      (simEngine [Move.real (12 : Fin 64) (28 : Fin 64) MoveType.NORMAL 0]
        false false Color.WHITE false [])
      ("h7h8".toList) [Move.null] [(), ()] =
      (["Game over".toList], [Move.null], [(), ()]) :=
  position_make_move_failure_frame
    (simEngine [Move.real (12 : Fin 64) (28 : Fin 64) MoveType.NORMAL 0]
      false false Color.WHITE false [])
    ("h7h8".toList) [Move.null] [(), ()] (by decide) (Or.inl (by decide)) (by decide)

/-! ### Claim C2: the castling-rights field of the re-fed FEN -/

/-- Modelled from the spec: the four castling-rights flags a FEN's third
field records (white king-side, white queen-side, black king-side, black
queen-side). -/
structure Rights : Type where
  K : Bool
  Q : Bool
  k : Bool
  q : Bool
deriving DecidableEq, Repr

/-- Modelled from the spec: the castling-rights field as the external
Position serializes it — the present rights' letters in `K`, `Q`, `k`, `q`
order, or `-` when no right remains (glossary: FEN). -/
def rightsStr (r : Rights) : Str :=
  let s := (if r.K then ['K'] else []) ++ (if r.Q then ['Q'] else []) ++
    (if r.k then ['k'] else []) ++ (if r.q then ['q'] else [])
  if s = [] then ['-'] else s

/-- Side-to-move letter of a FEN. -/
def sideChar : Color → Char
  | .WHITE => 'w'
  | .BLACK => 'b'

/-- Modelled from the spec: applying a castling move clears exactly both of
the mover's own castling rights and cannot touch the opponent's (§3: the
undo record stores the prior castling rights the move cleared). -/
def afterCastleRights (mover : Color) (r : Rights) : Rights :=
  match mover with
  | .WHITE => ⟨false, false, r.k, r.q⟩
  | .BLACK => ⟨r.K, r.Q, false, false⟩

/-- Modelled from the spec: the FEN string the external Position serializes
right after a castling move by `mover` was applied to a position whose
castling rights were `r`: the placement field (blank-free), the opponent
now to move, the castling field with the mover's rights cleared, then the
remaining fields (en-passant target and the two clocks). -/
def fenAfterCastle (placement : Str) (mover : Color) (r : Rights) (rest : Str) : Str :=
  placement ++ ' ' :: sideChar mover.other :: ' ' ::
    (rightsStr (afterCastleRights mover r) ++ ' ' :: rest)

/-- Rights letters belonging to a side. -/
def ownLetters : Color → List Char
  | .WHITE => ['K', 'Q']
  | .BLACK => ['k', 'q']

/-- Flag of `r` recorded by a rights letter. -/
def hasRight (r : Rights) : Char → Bool
  | 'K' => r.K
  | 'Q' => r.Q
  | 'k' => r.k
  | 'q' => r.q
  | _ => false

theorem charIdx_eq_none (c : Char) (s : Str) (h : c ∉ s) : charIdx c s = Option.none := by
  induction s with
  | nil => rfl
  | cons x xs ih =>
    have hx : ¬ x = c := fun he => h (by simp [he])
    simp [charIdx, hx, ih (fun hm => h (by simp [hm]))]

theorem charIdx_append_first (c : Char) (a b : Str) (h : c ∉ a) :
    charIdx c (a ++ c :: b) = some a.length := by
  induction a with
  | nil => simp [charIdx]
  | cons x xs ih =>
    have hx : ¬ x = c := fun he => h (by simp [he])
    simp [charIdx, hx, ih (fun hm => h (by simp [hm]))]

theorem cppFind_eq_none (s : Str) (c : Char) (i : Nat) (h : c ∉ s.drop i) :
    cppFind s c i = Option.none := by
  simp [cppFind, charIdx_eq_none c _ h]

theorem cppFind_first_space (a b : Str) (h : ' ' ∉ a) :
    cppFind (a ++ ' ' :: b) ' ' 0 = some a.length := by
  simp [cppFind, charIdx_append_first ' ' a b h]

/-- The validator's rights surgery is the identity whenever neither of the
searched letters occurs at or after the first blank. -/
theorem editSide_noop (a b : Str) (kc qc : Char) (hsp : ' ' ∉ a)
    (hk : kc ∉ (' ' :: b)) (hq : qc ∉ (' ' :: b)) :
    editSide (a ++ ' ' :: b) kc qc = a ++ ' ' :: b := by
  have hdrop : (a ++ ' ' :: b).drop a.length = ' ' :: b := List.drop_left a (' ' :: b)
  have hK : cppFind (a ++ ' ' :: b) kc a.length = Option.none :=
    cppFind_eq_none _ _ _ (by rw [hdrop]; exact hk)
  have hQ : cppFind (a ++ ' ' :: b) qc a.length = Option.none :=
    cppFind_eq_none _ _ _ (by rw [hdrop]; exact hq)
  simp only [editSide, cppFind_first_space a b hsp, hK, hQ]

theorem rightsStr_chars (r : Rights) :
    ∀ c ∈ rightsStr r, c = 'K' ∨ c = 'Q' ∨ c = 'k' ∨ c = 'q' ∨ c = '-' := by
  obtain ⟨a, b, c', d⟩ := r
  cases a <;> cases b <;> cases c' <;> cases d <;> intro c hc <;>
    simp_all [rightsStr] <;> tauto

theorem rightsStr_ne_nil (r : Rights) : rightsStr r ≠ [] := by
  obtain ⟨a, b, c', d⟩ := r
  cases a <;> cases b <;> cases c' <;> cases d <;> decide

theorem space_not_mem_rightsStr (r : Rights) : ' ' ∉ rightsStr r := by
  intro h
  rcases rightsStr_chars r ' ' h with h' | h' | h' | h' | h' <;> cases h'

theorem upper_not_mem_rightsStr (x y : Bool) :
    'K' ∉ rightsStr ⟨false, false, x, y⟩ ∧ 'Q' ∉ rightsStr ⟨false, false, x, y⟩ := by
  cases x <;> cases y <;> decide

theorem lower_not_mem_rightsStr (x y : Bool) :
    'k' ∉ rightsStr ⟨x, y, false, false⟩ ∧ 'q' ∉ rightsStr ⟨x, y, false, false⟩ := by
  cases x <;> cases y <;> decide

theorem not_mem_fen_tail (c c1 : Char) (rcs rest : Str) (h1 : c ≠ ' ')
    (h2 : c ≠ c1) (h3 : c ∉ rcs) (h4 : c ∉ rest) :
    c ∉ (' ' :: c1 :: ' ' :: (rcs ++ ' ' :: rest)) := by
  intro h
  rcases List.mem_cons.mp h with h | h
  · exact h1 h
  rcases List.mem_cons.mp h with h | h
  · exact h2 h
  rcases List.mem_cons.mp h with h | h
  · exact h1 h
  rcases List.mem_append.mp h with h | h
  · exact h3 h
  rcases List.mem_cons.mp h with h | h
  · exact h1 h
  · exact h4 h

/-- The edit applied by the validator after a castling move does not change
the serialized FEN at all: the move application already removed the mover's
rights letters, so neither searched letter occurs at or after the first
blank. -/
theorem castleFenEdit_noop (placement : Str) (mover : Color) (r : Rights) (rest : Str)
    (hsp : ' ' ∉ placement)
    (hrest : ∀ c ∈ rest, c ≠ 'K' ∧ c ≠ 'Q' ∧ c ≠ 'k' ∧ c ≠ 'q') :
    castleFenEdit (fenAfterCastle placement mover r rest) mover =
      fenAfterCastle placement mover r rest := by
  cases mover with
  | WHITE =>
    have hk := not_mem_fen_tail 'K' (sideChar Color.WHITE.other)
      (rightsStr (afterCastleRights Color.WHITE r)) rest (by decide) (by decide)
      ((upper_not_mem_rightsStr r.k r.q).1) (fun h => (hrest 'K' h).1 rfl)
    have hq := not_mem_fen_tail 'Q' (sideChar Color.WHITE.other)
      (rightsStr (afterCastleRights Color.WHITE r)) rest (by decide) (by decide)
      ((upper_not_mem_rightsStr r.k r.q).2) (fun h => (hrest 'Q' h).2.1 rfl)
    simp only [castleFenEdit]
    unfold fenAfterCastle
    exact editSide_noop placement _ 'K' 'Q' hsp hk hq
  | BLACK =>
    have hk := not_mem_fen_tail 'k' (sideChar Color.BLACK.other)
      (rightsStr (afterCastleRights Color.BLACK r)) rest (by decide) (by decide)
      ((lower_not_mem_rightsStr r.K r.Q).1) (fun h => (hrest 'k' h).2.2.1 rfl)
    have hq := not_mem_fen_tail 'q' (sideChar Color.BLACK.other)
      (rightsStr (afterCastleRights Color.BLACK r)) rest (by decide) (by decide)
      ((lower_not_mem_rightsStr r.K r.Q).2) (fun h => (hrest 'q' h).2.2.2 rfl)
    simp only [castleFenEdit]
    unfold fenAfterCastle
    exact editSide_noop placement _ 'k' 'q' hsp hk hq

theorem tokenizeAux_append (t s acc : Str) (h2 : ' ' ∉ t) :
    tokenizeAux (t ++ ' ' :: s) acc =
      (if acc ++ t = [] then tokenizeAux s []
        else (acc ++ t) :: tokenizeAux s []) := by
  induction t generalizing acc with
  | nil => simp [tokenizeAux]
  | cons c cs ih =>
    have hc : ¬ c = ' ' := fun he => h2 (by simp [he])
    rw [List.cons_append, tokenizeAux, if_neg hc,
      ih (acc ++ [c]) (fun hm => h2 (by simp [hm]))]
    simp

theorem tokenize_append_tok (t s : Str) (h1 : t ≠ []) (h2 : ' ' ∉ t) :
    tokenize (t ++ ' ' :: s) = t :: tokenize s := by
  rw [tokenize, tokenizeAux_append t s [] h2]
  simp [h1, tokenize]

/-- Tokenizing the post-castling FEN yields exactly its four-plus field
structure: placement, side letter, castling-rights field, remaining
fields. -/
theorem tokenize_fenAfterCastle (placement : Str) (mover : Color) (r : Rights)
    (rest : Str) (hp1 : placement ≠ []) (hp2 : ' ' ∉ placement) :
    tokenize (fenAfterCastle placement mover r rest) =
      placement :: [sideChar mover.other] ::
        rightsStr (afterCastleRights mover r) :: tokenize rest := by
  unfold fenAfterCastle
  rw [tokenize_append_tok placement _ hp1 hp2]
  rw [show (sideChar mover.other :: ' ' ::
        (rightsStr (afterCastleRights mover r) ++ ' ' :: rest)) =
      ([sideChar mover.other] ++ ' ' ::
        (rightsStr (afterCastleRights mover r) ++ ' ' :: rest)) by simp]
  rw [tokenize_append_tok [sideChar mover.other] _ (by simp)
    (by cases mover <;> decide)]
  rw [tokenize_append_tok (rightsStr (afterCastleRights mover r)) rest
    (rightsStr_ne_nil _) (space_not_mem_rightsStr _)]

theorem after_white_mem (x y : Bool) :
    ('k' ∈ rightsStr ⟨false, false, x, y⟩ ↔ x = true) ∧
      ('q' ∈ rightsStr ⟨false, false, x, y⟩ ↔ y = true) := by
  cases x <;> cases y <;> decide

theorem after_black_mem (x y : Bool) :
    ('K' ∈ rightsStr ⟨x, y, false, false⟩ ↔ x = true) ∧
      ('Q' ∈ rightsStr ⟨x, y, false, false⟩ ↔ y = true) := by
  cases x <;> cases y <;> decide

/-- Claim C2: when the validator applies a castling move, the FEN it re-feeds
into the `position` handler is the captured post-move FEN unchanged, and its
castling-rights field (the third token of the re-fed command) has exactly
the mover's own rights letters absent while each of the opponent's letters
is present exactly when the pre-move position had that right. -/
theorem position_make_move_castleFen {P : Type} (E : Engine P) (tok : Str) (p : P)
    (sts : List Unit) (src dst : Square) (promo : Fin 7) (placement rest : Str)
    (r : Rights)
    (hm : UCI.to_move (E.view p) tok = Move.real src dst MoveType.CASTLING promo)
    (hok : E.pos_is_ok (E.do_move p (Move.real src dst MoveType.CASTLING promo)) = true)
    (hundo : E.undo_move (E.do_move p (Move.real src dst MoveType.CASTLING promo))
      (Move.real src dst MoveType.CASTLING promo) = p)
    (hfen : E.fen (E.do_move p (Move.real src dst MoveType.CASTLING promo)) =
      fenAfterCastle placement (E.side_to_move p) r rest)
    (hp1 : placement ≠ []) (hp2 : ' ' ∉ placement)
    (hrest : ∀ c ∈ rest, c ≠ 'K' ∧ c ≠ 'Q' ∧ c ≠ 'k' ∧ c ≠ 'q') :
    position_make_move E tok p sts =
      ([], position E
        ("fen".toList :: placement :: [sideChar (E.side_to_move p).other] ::
          rightsStr (afterCastleRights (E.side_to_move p) r) :: tokenize rest)
        (p, sts)) ∧
    (∀ c ∈ ownLetters (E.side_to_move p),
      c ∉ rightsStr (afterCastleRights (E.side_to_move p) r)) ∧
    (∀ c ∈ ownLetters (E.side_to_move p).other,
      (c ∈ rightsStr (afterCastleRights (E.side_to_move p) r) ↔ hasRight r c = true)) := by
  have hmem : Move.real src dst MoveType.CASTLING promo ∈ (E.view p).legal := by
    have hd := to_move_mem (E.view p) tok
    rw [hm] at hd
    rcases hd with hd | hd
    · exact absurd hd (by simp)
    · exact hd
  have hlen : ¬ ((E.view p).legal).length = 0 := by
    intro h0
    rw [List.length_eq_zero] at h0
    rw [h0] at hmem
    exact absurd hmem (List.not_mem_nil _)
  refine ⟨?_, ?_, ?_⟩
  · have hisok : is_ok (Move.real src dst MoveType.CASTLING promo) = true := rfl
    simp only [position_make_move, if_neg hlen, hm]
    rw [if_neg (by simp [hisok]), if_pos hmem, if_neg (by simp [hok])]
    rw [hundo, hfen]
    simp only [isCastling, if_true]
    rw [castleFenEdit_noop _ _ _ _ hp2 hrest]
    rw [tokenize_fenAfterCastle _ _ _ _ hp1 hp2]
  · intro c hc
    cases hs : E.side_to_move p with
    | WHITE =>
      rw [hs] at hc
      simp only [ownLetters, List.mem_cons] at hc
      rcases hc with rfl | rfl | h
      · exact (upper_not_mem_rightsStr r.k r.q).1
      · exact (upper_not_mem_rightsStr r.k r.q).2
      · exact absurd h (List.not_mem_nil _)
    | BLACK =>
      rw [hs] at hc
      simp only [ownLetters, List.mem_cons] at hc
      rcases hc with rfl | rfl | h
      · exact (lower_not_mem_rightsStr r.K r.Q).1
      · exact (lower_not_mem_rightsStr r.K r.Q).2
      · exact absurd h (List.not_mem_nil _)
  · intro c hc
    cases hs : E.side_to_move p with
    | WHITE =>
      rw [hs] at hc
      simp only [Color.other, ownLetters, List.mem_cons] at hc
      rcases hc with rfl | rfl | h
      · exact (after_white_mem r.k r.q).1
      · exact (after_white_mem r.k r.q).2
      · exact absurd h (List.not_mem_nil _)
    | BLACK =>
      rw [hs] at hc
      simp only [Color.other, ownLetters, List.mem_cons] at hc
      rcases hc with rfl | rfl | h
      · exact (after_black_mem r.K r.Q).1
      · exact (after_black_mem r.K r.Q).2
      · exact absurd h (List.not_mem_nil _)

/-- Concrete run of the castling-FEN theorem: white castles king-side from
the all-rights position `r3k2r/8/8/8/8/8/8/R3K2R w KQkq - 0 1`; the re-fed
FEN keeps the opponent's `kq` and drops `KQ`, and the validator's session
re-synchronizes through the `position` handler. -/
theorem position_make_move_castleFen_witness :
    position_make_move
      (simEngine [Move.real (4 : Fin 64) (7 : Fin 64) MoveType.CASTLING 0]
        false false Color.WHITE true
        ("r3k2r/8/8/8/8/8/8/R3K2R b kq - 0 1".toList))
      ("e1g1".toList) ([] : SimP) ([] : List Unit) =
      (([] : List Str), (([] : SimP), [()])) :=
  ((position_make_move_castleFen
      (simEngine [Move.real (4 : Fin 64) (7 : Fin 64) MoveType.CASTLING 0]
        false false Color.WHITE true
        ("r3k2r/8/8/8/8/8/8/R3K2R b kq - 0 1".toList))
      ("e1g1".toList) ([] : SimP) ([] : List Unit)
      (4 : Fin 64) (7 : Fin 64) 0
      ("r3k2r/8/8/8/8/8/8/R3K2R".toList) ("- 0 1".toList)
      ⟨true, true, true, true⟩
      (by decide) (by decide) (by decide) (by decide) (by decide) (by decide)
      (by decide)).1).trans (by decide)

/-! ### Claim C7: the `setoption` handler -/

/-- Multi-word join of the `setoption` parser: each further token is
preceded by one blank (`name += (name.empty() ? "" : " ") + token`). -/
def joinSp (ts : List Str) : Str :=
  ts.foldl (fun a t => a ++ (if a = [] then [] else [' ']) ++ t) []

/-- Modelled from the spec: value lookup in the Option Table (§3: a mapping
from option name to current string value). -/
def optLookup (opts : List (Str × Str)) (k : Str) : Option Str :=
  (opts.find? (fun kv => decide (kv.1 = k))).map (fun kv => kv.2)

/-- Source handler `setoption`: consume one token (the `name` keyword), read
the multi-word name up to the `value` token, read the multi-word value from
the rest of the line; overwrite the value of a registered name, report "No
such option" otherwise.  The Option Table itself is external (spec §3), so
it is modelled as an association list with exact-name lookup. -/
def setoption (toks : List Str) (opts : List (Str × Str)) :
    List (Str × Str) × List Str :=
  let rest := toks.drop 1
  let nameToks := rest.takeWhile (fun x => decide (x ≠ "value".toList))
  let valueToks := (rest.dropWhile (fun x => decide (x ≠ "value".toList))).drop 1
  let nm := joinSp nameToks
  let vl := joinSp valueToks
  if opts.any (fun kv => decide (kv.1 = nm)) then
    (opts.map (fun kv => if kv.1 = nm then (kv.1, vl) else kv), [])
  else (opts, ["No such option: ".toList ++ nm])

theorem lookup_map_update (opts : List (Str × Str)) (nm vl : Str)
    (h : opts.any (fun kv => decide (kv.1 = nm)) = true) :
    optLookup (opts.map (fun kv => if kv.1 = nm then (kv.1, vl) else kv)) nm =
      some vl := by
  induction opts with
  | nil => simp at h
  | cons kv rest ih =>
    by_cases hk : kv.1 = nm
    · simp [optLookup, List.find?, hk]
    · have h' : rest.any (fun kv => decide (kv.1 = nm)) = true := by
        simp only [List.any_cons, Bool.or_eq_true] at h
        rcases h with h | h
        · exact absurd (by simpa using h) hk
        · exact h
      have := ih h'
      simp only [List.map_cons, if_neg hk]
      simpa [optLookup, List.find?, hk] using this

theorem lookup_map_update_other (opts : List (Str × Str)) (nm vl k2 : Str)
    (h : k2 ≠ nm) :
    optLookup (opts.map (fun kv => if kv.1 = nm then (kv.1, vl) else kv)) k2 =
      optLookup opts k2 := by
  induction opts with
  | nil => rfl
  | cons kv rest ih =>
    by_cases hk : kv.1 = nm
    · have hne : ¬ kv.1 = k2 := fun he => h (he.symm.trans hk)
      simp only [List.map_cons, if_pos hk]
      have hne2 : ¬ (kv.1, vl).1 = k2 := hne
      simpa [optLookup, List.find?, hne, hne2] using ih
    · simp only [List.map_cons, if_neg hk]
      by_cases he : kv.1 = k2
      · simp [optLookup, List.find?, he]
      · simpa [optLookup, List.find?, he] using ih

/-- Claim C7: a `setoption name <name…> value <value…>` command overwrites
the value of a registered name — the subsequent lookup yields the new value,
every other entry's lookup is unchanged and no diagnostic is printed —
while an unregistered name leaves the table exactly as it was and emits
the "No such option" diagnostic. -/
theorem setoption_spec (opts : List (Str × Str)) (nameToks valueToks : List Str)
    (hv : "value".toList ∉ nameToks) :
    (opts.any (fun kv => decide (kv.1 = joinSp nameToks)) = true →
      optLookup
          (setoption ("name".toList :: (nameToks ++ "value".toList :: valueToks)) opts).1
          (joinSp nameToks) = some (joinSp valueToks) ∧
      (∀ k2, k2 ≠ joinSp nameToks →
        optLookup
            (setoption ("name".toList :: (nameToks ++ "value".toList :: valueToks)) opts).1
            k2 = optLookup opts k2) ∧
      (setoption ("name".toList :: (nameToks ++ "value".toList :: valueToks)) opts).2 = []) ∧
    (opts.any (fun kv => decide (kv.1 = joinSp nameToks)) = false →
      setoption ("name".toList :: (nameToks ++ "value".toList :: valueToks)) opts =
        (opts, ["No such option: ".toList ++ joinSp nameToks])) := by
  have hall : ∀ x ∈ nameToks, (fun x => decide (x ≠ "value".toList)) x = true := by
    intro x hx
    simp only [decide_eq_true_eq]
    exact fun he => hv (he ▸ hx)
  have htake : ((nameToks ++ "value".toList :: valueToks).takeWhile
      (fun x => decide (x ≠ "value".toList))) = nameToks := by
    rw [takeWhile_all_append _ _ _ hall, List.takeWhile_cons_of_neg (by simp)]
    simp
  have hdrop : ((nameToks ++ "value".toList :: valueToks).dropWhile
      (fun x => decide (x ≠ "value".toList))) = "value".toList :: valueToks := by
    rw [dropWhile_all_append _ _ _ hall, List.dropWhile_cons_of_neg (by simp)]
  constructor
  · intro hreg
    simp only [setoption, List.drop_succ_cons, List.drop_zero, htake, hdrop,
      List.drop_one, List.tail_cons, if_pos hreg]
    exact ⟨lookup_map_update opts _ _ hreg,
      fun k2 hk2 => lookup_map_update_other opts _ _ k2 hk2, trivial⟩
  · intro hreg
    simp only [setoption, List.drop_succ_cons, List.drop_zero, htake, hdrop,
      List.drop_one, List.tail_cons, hreg]
    simp

/-- Concrete run of the `setoption` theorem: setting `Hash` to `128` in a
table holding `Hash := 16` makes the lookup yield `128`, and setting an
unregistered `NoSuchOption` leaves the table unchanged and prints the
diagnostic. -/
theorem setoption_spec_witness :
    optLookup
        (setoption ("name".toList :: (["Hash".toList] ++ "value".toList :: ["128".toList]))
          [("Hash".toList, "16".toList)]).1
        (joinSp ["Hash".toList]) = some (joinSp ["128".toList]) ∧
    setoption ("name".toList :: (["NoSuchOption".toList] ++ "value".toList :: ["1".toList]))
        [("Hash".toList, "16".toList)] =
      ([("Hash".toList, "16".toList)],
        ["No such option: ".toList ++ joinSp ["NoSuchOption".toList]]) :=
  ⟨((setoption_spec [("Hash".toList, "16".toList)] ["Hash".toList] ["128".toList]
      (by decide)).1 (by decide)).1,
    (setoption_spec [("Hash".toList, "16".toList)] ["NoSuchOption".toList] ["1".toList]
      (by decide)).2 (by decide)⟩

/-! ### Claim C10: the `go` handler and `searchmoves` -/

/-- Modelled from the spec: the Search Request (§3) — per-side time and
increment, moves to go, the optional bounds, and the search-move
restriction list.  The external constructor zero-initializes every field. -/
structure LimitsType : Type where
  searchmoves : List Move
  timeW : Int
  timeB : Int
  incW : Int
  incB : Int
  movestogo : Int
  depth : Int
  nodes : Int
  movetime : Int
  mate : Int
  perft : Int
  infinite : Int
deriving DecidableEq, Repr

/-- Zero-initialized Search Request. -/
def LimitsType.init : LimitsType := ⟨[], 0, 0, 0, 0, 0, 0, 0, 0, 0, 0, 0⟩

/-- Numeric stream extraction, modelled at token granularity: a token that
parses as an integer yields it; at end of input or on a malformed token the
C++11 stream writes 0 and raises the fail bit, ending the parse loop. -/
def parseIntTok (s : Str) : Option Int := String.toInt? (String.mk s)

/-- Token loop of the source handler `go`: `searchmoves` hands every
remaining token to the codec and appends the decoded moves; each limit
keyword consumes one numeric argument; `infinite` and `ponder` set flags;
unrecognized tokens are skipped. -/
def goLoop (pos : Pos) : List Str → LimitsType → Bool → LimitsType × Bool
  | [], lim, pond => (lim, pond)
  | t :: ts, lim, pond =>
    if t = "searchmoves".toList then
      ({ lim with searchmoves :=
          lim.searchmoves ++ ts.map (fun tk => UCI.to_move pos tk) }, pond)
    else if t = "wtime".toList then
      match ts with
      | [] => ({ lim with timeW := 0 }, pond)
      | v :: rest =>
        match parseIntTok v with
        | some n => goLoop pos rest { lim with timeW := n } pond
        | Option.none => ({ lim with timeW := 0 }, pond)
    else if t = "btime".toList then
      match ts with
      | [] => ({ lim with timeB := 0 }, pond)
      | v :: rest =>
        match parseIntTok v with
        | some n => goLoop pos rest { lim with timeB := n } pond
        | Option.none => ({ lim with timeB := 0 }, pond)
    else if t = "winc".toList then
      match ts with
      | [] => ({ lim with incW := 0 }, pond)
      | v :: rest =>
        match parseIntTok v with
        | some n => goLoop pos rest { lim with incW := n } pond
        | Option.none => ({ lim with incW := 0 }, pond)
    else if t = "binc".toList then
      match ts with
      | [] => ({ lim with incB := 0 }, pond)
      | v :: rest =>
        match parseIntTok v with
        | some n => goLoop pos rest { lim with incB := n } pond
        | Option.none => ({ lim with incB := 0 }, pond)
    else if t = "movestogo".toList then
      match ts with
      | [] => ({ lim with movestogo := 0 }, pond)
      | v :: rest =>
        match parseIntTok v with
        | some n => goLoop pos rest { lim with movestogo := n } pond
        | Option.none => ({ lim with movestogo := 0 }, pond)
    else if t = "depth".toList then
      match ts with
      | [] => ({ lim with depth := 0 }, pond)
      | v :: rest =>
        match parseIntTok v with
        | some n => goLoop pos rest { lim with depth := n } pond
        | Option.none => ({ lim with depth := 0 }, pond)
    else if t = "nodes".toList then
      match ts with
      | [] => ({ lim with nodes := 0 }, pond)
      | v :: rest =>
        match parseIntTok v with
        | some n => goLoop pos rest { lim with nodes := n } pond
        | Option.none => ({ lim with nodes := 0 }, pond)
    else if t = "movetime".toList then
      match ts with
      | [] => ({ lim with movetime := 0 }, pond)
      | v :: rest =>
        match parseIntTok v with
        | some n => goLoop pos rest { lim with movetime := n } pond
        | Option.none => ({ lim with movetime := 0 }, pond)
    else if t = "mate".toList then
      match ts with
      | [] => ({ lim with mate := 0 }, pond)
      | v :: rest =>
        match parseIntTok v with
        | some n => goLoop pos rest { lim with mate := n } pond
        | Option.none => ({ lim with mate := 0 }, pond)
    else if t = "perft".toList then
      match ts with
      | [] => ({ lim with perft := 0 }, pond)
      | v :: rest =>
        match parseIntTok v with
        | some n => goLoop pos rest { lim with perft := n } pond
        | Option.none => ({ lim with perft := 0 }, pond)
    else if t = "infinite".toList then goLoop pos ts { lim with infinite := 1 } pond
    else if t = "ponder".toList then goLoop pos ts lim true
    else goLoop pos ts lim pond

/-- Source handler `go`: parse the Search Request from a zero-initialized
state and a cleared ponder flag; the pair is what `Threads.start_thinking`
receives. -/
def go (pos : Pos) (toks : List Str) : LimitsType × Bool :=
  goLoop pos toks LimitsType.init false

/-- Claim C10: once the `go` token loop meets `searchmoves`, every remaining
token of the line — whatever it spells, limit keywords included — is decoded
against the current position and appended to the restriction list (tokens
decoding to no legal move contribute the sentinel), one entry per token,
and no other field of the Search Request changes. -/
theorem goLoop_searchmoves (pos : Pos) (ts : List Str) (lim : LimitsType)
    (pond : Bool) :
    (goLoop pos ("searchmoves".toList :: ts) lim pond).1.searchmoves =
        lim.searchmoves ++ ts.map (fun tk => UCI.to_move pos tk) ∧
    (goLoop pos ("searchmoves".toList :: ts) lim pond).1.searchmoves.length =
        lim.searchmoves.length + ts.length ∧
    (goLoop pos ("searchmoves".toList :: ts) lim pond).1.timeW = lim.timeW ∧
    (goLoop pos ("searchmoves".toList :: ts) lim pond).1.timeB = lim.timeB ∧
    (goLoop pos ("searchmoves".toList :: ts) lim pond).1.incW = lim.incW ∧
    (goLoop pos ("searchmoves".toList :: ts) lim pond).1.incB = lim.incB ∧
    (goLoop pos ("searchmoves".toList :: ts) lim pond).1.movestogo = lim.movestogo ∧
    (goLoop pos ("searchmoves".toList :: ts) lim pond).1.depth = lim.depth ∧
    (goLoop pos ("searchmoves".toList :: ts) lim pond).1.nodes = lim.nodes ∧
    (goLoop pos ("searchmoves".toList :: ts) lim pond).1.movetime = lim.movetime ∧
    (goLoop pos ("searchmoves".toList :: ts) lim pond).1.mate = lim.mate ∧
    (goLoop pos ("searchmoves".toList :: ts) lim pond).1.perft = lim.perft ∧
    (goLoop pos ("searchmoves".toList :: ts) lim pond).1.infinite = lim.infinite ∧
    (goLoop pos ("searchmoves".toList :: ts) lim pond).2 = pond := by
  rw [goLoop.eq_def]
  dsimp only
  rw [if_pos rfl]
  simp

/-! ### Claim C8: the `bench` summary never divides by zero -/

/-- Source `bench`, summary part.  The wall clock is modelled from the spec
as two monotone samples `t0` (loop start) and `t1` (loop end); the node
total accumulates one external search result per command whose first token
is `go`; elapsed time is `t1 - t0 + 1` ("Ensure positivity to avoid a
'divide by zero'"), and the summary reports elapsed time, total nodes and
`1000 * nodes / elapsed`. -/
def benchRun (cmds : List Str) (goNodes : Nat → Int) (t0 t1 : Int) :
    Int × Int × Int :=
  let goCmds := cmds.countP (fun c => decide ((tokenize c).headD [] = "go".toList))
  let nodes := ((List.range goCmds).map goNodes).foldl (· + ·) 0
  let elapsed := t1 - t0 + 1
  (elapsed, nodes, 1000 * nodes / elapsed)

/-- Claim C8: for every bench run over any command list — a list with zero
`go` entries included — the elapsed time used by the summary is at least one
time unit (hence nonzero), and the nodes-per-second value is exactly
`1000 * nodes / elapsed` with that positive elapsed time. -/
theorem benchRun_elapsed_positive (cmds : List Str) (goNodes : Nat → Int)
    (t0 t1 : Int) (h : t0 ≤ t1) :
    1 ≤ (benchRun cmds goNodes t0 t1).1 ∧
    (benchRun cmds goNodes t0 t1).1 ≠ 0 ∧
    (benchRun cmds goNodes t0 t1).2.2 =
      1000 * (benchRun cmds goNodes t0 t1).2.1 / (benchRun cmds goNodes t0 t1).1 := by
  refine ⟨?_, ?_, rfl⟩
  · simp only [benchRun]
    omega
  · simp only [benchRun]
    omega

/-- Concrete run of the bench theorem: a command list with zero `go`
entries, both clock samples equal — the summary still uses elapsed time 1. -/
theorem benchRun_elapsed_positive_witness :
    1 ≤ (benchRun ["position startpos".toList, "ucinewgame".toList]
        (fun _ => 0) 3 3).1 :=
  (benchRun_elapsed_positive ["position startpos".toList, "ucinewgame".toList]
    (fun _ => 0) 3 3 (by decide)).1

end SugaR
